import Mathlib

/-!
Verification of `identity.go` from the go-ztidentity repository.

The Go source is shallowly embedded below.  Byte arrays are modelled as
functions `Nat → Nat` (index to byte value) or as `List Nat`; machine
integers are `Nat` (the Go code never overflows a uint64: every value fed
to a shift or an or is bounded, which is proved where it matters).  The
two external cryptographic primitives used by the hash
(`sha512.Sum512` and the salsa20 keystream behind `salsa.XORKeyStream`)
are parameters of the embedding, collected in `CryptoPrims`: every
theorem below holds for an arbitrary choice of these primitives, which is
exactly the information content of the Go control flow and indexing.
-/

/-- Constant `ztIdentityGenMemory` from identity.go line 43: the size in
bytes of the memory-hard working buffer. -/
def ztIdentityGenMemory : Nat := 2097152

/-- Constant `ztIdentityHashCashFirstByteLessThan` from identity.go line 44:
the difficulty threshold on the first digest byte. -/
def ztIdentityHashCashFirstByteLessThan : Nat := 17

/-- The external cryptographic primitives used by
`computeZeroTierIdentityMemoryHardHash`.  `sha512` maps the input byte
list to its 64-byte digest (as a byte function).  `ks key ctr j` is byte
`j` of the salsa20 keystream block generated from the 32-byte key and the
16-byte counter block, as used by `salsa.XORKeyStream`. -/
structure CryptoPrims where
  sha512 : List Nat → Nat → Nat
  ks : (Nat → Nat) → (Nat → Nat) → Nat → Nat

/-- Model of `binary.LittleEndian.PutUint64(a[off:off+8], v)`: overwrite
bytes `off ≤ j < off+8` of `a` with the little-endian bytes of `v`. -/
def putLE64 (a : Nat → Nat) (off v : Nat) : Nat → Nat :=
  fun j => if off ≤ j ∧ j < off + 8 then (v >>> (8 * (j - off))) % 256 else a j

/-- Model of `salsa.XORKeyStream(g[dstOff:dstOff+64], g[srcOff:srcOff+64],
&ctr, &key)` on the buffer `g`: the 64 destination bytes become the source
bytes xored with the keystream block; all other bytes are untouched. -/
def fillBlock (C : CryptoPrims) (key ctr g : Nat → Nat) (dstOff srcOff : Nat) : Nat → Nat :=
  fun j =>
    if dstOff ≤ j ∧ j < dstOff + 64 then
      g (srcOff + (j - dstOff)) ^^^ C.ks key ctr (j - dstOff)
    else g j

/-- The sequential fill of the working buffer, identity.go lines 49-61.
`genmemFill C key iv n` is the buffer after the first `n` 64-byte blocks
have been written.  Block 0 is the keystream applied to the all-zero
buffer with the initial counter block `iv` (whose counter field, bytes
8..16, is zero); block `k` for `k ≥ 1` is the keystream block at counter
`k` applied to block `k-1`.  `iv` is the 16-byte counter array right
after `copy(s20ctr[0:8], s512[32:40])`. -/
def genmemFill (C : CryptoPrims) (key iv : Nat → Nat) : Nat → Nat → Nat
  | 0 => fun _ => 0
  | n + 1 =>
    fillBlock C key (if n = 0 then iv else putLE64 iv 8 n)
      (genmemFill C key iv n) (64 * n) (if n = 0 then 0 else 64 * (n - 1))

/-- Model of `binary.BigEndian.Uint64(g[i:i+8])`. -/
def beUint64 (g : Nat → Nat) (i : Nat) : Nat :=
  g i <<< 56 ||| g (i + 1) <<< 48 ||| g (i + 2) <<< 40 ||| g (i + 3) <<< 32 |||
    g (i + 4) <<< 24 ||| g (i + 5) <<< 16 ||| g (i + 6) <<< 8 ||| g (i + 7)

/-- The state mutated by the mixing pass of the memory-hard hash: the
64-byte seed array `s512`, the working buffer `genmem`, and the keystream
block counter `s20ctri`. -/
structure MixState where
  s512 : Nat → Nat
  genmem : Nat → Nat
  s20ctri : Nat

/-- Identity.go line 65: the seed offset for the swap, derived from the
big-endian integer read from the working buffer at offset `i`. -/
def mixIdx1 (g : Nat → Nat) (i : Nat) : Nat :=
  (beUint64 g i &&& 7) * 8

/-- Identity.go line 67: the buffer offset for the swap, derived from the
big-endian integer read from the working buffer at offset `i + 8` (the
loop variable was incremented by 8 between the two reads). -/
def mixIdx2 (g : Nat → Nat) (i : Nat) : Nat :=
  beUint64 g (i + 8) % (ztIdentityGenMemory / 8) * 8

/-- One iteration of the mixing loop body, identity.go lines 65-76, taking
the loop variable `i` at the top of the iteration: compute `idx1` and
`idx2` from the two 8-byte big-endian reads of `genmem` at `i` and `i+8`,
swap the 8 bytes `genmem[idx2:idx2+8]` with `s512[idx1:idx1+8]`, then
re-encrypt the full 64-byte seed in place with the keystream block at
counter `s20ctri`, and increment the counter. -/
def mixStep (C : CryptoPrims) (key iv : Nat → Nat) (st : MixState) (i : Nat) : MixState :=
  let idx1 := mixIdx1 st.genmem i
  let idx2 := mixIdx2 st.genmem i
  let g2 : Nat → Nat := fun j =>
    if idx2 ≤ j ∧ j < idx2 + 8 then st.s512 (idx1 + (j - idx2)) else st.genmem j
  let s2 : Nat → Nat := fun j =>
    if idx1 ≤ j ∧ j < idx1 + 8 then st.genmem (idx2 + (j - idx1)) else st.s512 j
  let s3 : Nat → Nat := fun j =>
    if j < 64 then s2 j ^^^ C.ks key (putLE64 iv 8 st.s20ctri) j else s2 j
  ⟨s3, g2, st.s20ctri + 1⟩

/-- The mixing loop, identity.go lines 64-77: starting from loop variable
`i`, run while `i < ztIdentityGenMemory`, advancing `i` by 16 per
iteration (the body increments it by 8 twice).  `fuel` bounds the number
of iterations; the hash supplies exactly the number the guard allows. -/
def mixRun (C : CryptoPrims) (key iv : Nat → Nat) : Nat → Nat → MixState → MixState
  | 0, _, st => st
  | fuel + 1, i, st =>
    if i < ztIdentityGenMemory then
      mixRun C key iv fuel (i + 16) (mixStep C key iv st i)
    else st

/-- The same mixing loop as `mixRun`, returning the final seed array:
this is the digest that identity.go line 79 returns with
`return s512[:]`.  `mixRunS512_eq` below proves it agrees with the seed
component of `mixRun`. -/
def mixRunS512 (C : CryptoPrims) (key iv : Nat → Nat) : Nat → Nat → MixState → Nat → Nat
  | 0, _, st => st.s512
  | fuel + 1, i, st =>
    if i < ztIdentityGenMemory then
      mixRunS512 C key iv fuel (i + 16) (mixStep C key iv st i)
    else st.s512

/-- The list of values of the loop variable `i` at which the mixing loop
body executes, mirroring the guard and the stride of `mixRun`. -/
def mixVisited : Nat → Nat → List Nat
  | 0, _ => []
  | fuel + 1, i =>
    if i < ztIdentityGenMemory then i :: mixVisited fuel (i + 16) else []

/-- The 32-byte salsa key copied out of the seed, identity.go line 53:
`copy(s20key[:], s512[0:32])`. -/
def s20keyOf (s512 : Nat → Nat) : Nat → Nat :=
  fun j => if j < 32 then s512 j else 0

/-- The 16-byte counter block right after identity.go line 54,
`copy(s20ctr[0:8], s512[32:40])`: seed bytes 32..40 in the first half, a
zero counter field in the second half. -/
def s20ctrOf (s512 : Nat → Nat) : Nat → Nat :=
  fun j => if j < 8 then s512 (32 + j) else 0

/-- The full state at the end of `computeZeroTierIdentityMemoryHardHash`
(identity.go lines 46-79): seed the state with SHA-512 of the public key,
derive the 32-byte salsa key from bytes 0..32 and the counter prefix from
bytes 32..40, fill the working buffer sequentially (32768 blocks, leaving
the counter at 32768), then run the mixing loop from `i = 0`. -/
def hashFinalState (C : CryptoPrims) (publicKey : List Nat) : MixState :=
  let s512 := C.sha512 publicKey
  let g := genmemFill C (s20keyOf s512) (s20ctrOf s512) (ztIdentityGenMemory / 64)
  mixRun C (s20keyOf s512) (s20ctrOf s512) (ztIdentityGenMemory / 16) 0
    ⟨s512, g, ztIdentityGenMemory / 64⟩

/-- Identity.go lines 46-80: the 64-byte digest returned by
`computeZeroTierIdentityMemoryHardHash` is the final seed state: seed
with SHA-512 of the public key, fill the buffer (32768 blocks, counter
ends at 32768), mix from `i = 0`, return the seed array.  The theorem
`computeHash_eq_finalState` proves this equal to the seed component of
`hashFinalState`. -/
def computeZeroTierIdentityMemoryHardHash (C : CryptoPrims) (publicKey : List Nat) : Nat → Nat :=
  let s512 := C.sha512 publicKey
  let g := genmemFill C (s20keyOf s512) (s20ctrOf s512) (ztIdentityGenMemory / 64)
  mixRunS512 C (s20keyOf s512) (s20ctrOf s512) (ztIdentityGenMemory / 16) 0
    ⟨s512, g, ztIdentityGenMemory / 64⟩

/-- The primitives produce bytes: every output of `sha512` and of the
keystream is below 256.  True of the real SHA-512 and salsa20. -/
def ByteValued (C : CryptoPrims) : Prop :=
  (∀ pk j, C.sha512 pk j < 256) ∧ (∀ key ctr j, C.ks key ctr j < 256)

/-- Identity.go lines 112-120: the address accumulated from digest bytes
59..63 by the shift-and-or chain of `NewZeroTierIdentity`. -/
def addr40 (dig : Nat → Nat) : Nat :=
  ((((dig 59 <<< 8 ||| dig 60) <<< 8 ||| dig 61) <<< 8 ||| dig 62) <<< 8) ||| dig 63

/-- The spec wording of the address: the big-endian 40-bit unsigned
integer formed from digest bytes 59..63. -/
def be40Spec (dig : Nat → Nat) : Nat :=
  dig 59 * 2 ^ 32 + dig 60 * 2 ^ 24 + dig 61 * 2 ^ 16 + dig 62 * 2 ^ 8 + dig 63

/-- The `ZeroTierIdentity` record, identity.go lines 99-103.  The private
key is optional, as in the Go struct where it is a nullable pointer. -/
structure ZeroTierIdentity where
  address : Nat
  publicKey : List Nat
  privateKey : Option (List Nat)

/-- The mining loop `NewZeroTierIdentity`, identity.go lines 107-129.  The
unbounded Go `for` loop is modelled with explicit fuel; `gen` is the
stream of candidate key pairs produced by `generateDualPair` (attempt
number to pair), so that the theorem quantifies over every possible
sequence of generated keys.  Returns `none` when the fuel runs out before
a candidate qualifies. -/
def NewZeroTierIdentity (C : CryptoPrims) (gen : Nat → List Nat × List Nat) :
    Nat → Option ZeroTierIdentity
  | 0 => none
  | fuel + 1 =>
    let pp := gen fuel
    let dig := computeZeroTierIdentityMemoryHardHash C pp.1
    if dig 0 < ztIdentityHashCashFirstByteLessThan ∧ dig 59 ≠ 255 then
      if addr40 dig ≠ 0 then some ⟨addr40 dig, pp.1, some pp.2⟩
      else NewZeroTierIdentity C gen fuel
    else NewZeroTierIdentity C gen fuel

/-- The elliptic-curve primitives used by `generateDualPair`:
`ed25519Pub seed` is the ed25519 public key derived from a 32-byte seed
(the x/crypto private key is the seed followed by this public key), and
`curveScalarBaseMult k` is `curve25519.ScalarBaseMult` of the 32-byte
private scalar `k`. -/
structure KeyPrims where
  ed25519Pub : List Nat → List Nat
  curveScalarBaseMult : List Nat → List Nat

/-- The two ways `generateDualPair` can abort (Go panics):
`notEnoughEntropy` is the explicit panic on identity.go line 88, and
`sliceBoundsOutOfRange` is the runtime panic raised by slicing the nil
key returned by `ed25519.GenerateKey` when its (discarded) error was
non-nil. -/
inductive GoPanic where
  | notEnoughEntropy
  | sliceBoundsOutOfRange
deriving DecidableEq

/-- Model of `ed25519.GenerateKey(secrand.Reader)` from x/crypto as called
on identity.go line 84: it reads a 32-byte seed (request 0 of the random
source); on read failure it returns nil keys together with the error,
which the caller discards with the blank identifier.  On success the
private key is the seed followed by the public key. -/
def ed25519GenerateKey (P : KeyPrims) (rand : Nat → Option (List Nat)) :
    Option (List Nat) × Option (List Nat) :=
  match rand 0 with
  | none => (none, none)
  | some seed => (some (P.ed25519Pub seed), some (seed ++ P.ed25519Pub seed))

/-- Model of `generateDualPair`, identity.go lines 83-96.  `rand i` is the
outcome of the i-th read request to the secure random source (`none`
when the source cannot supply the bytes): request 0 is the ed25519 seed,
request 1 is the curve25519 private scalar.  A failed request 1 hits the
explicit entropy panic; a failed request 0 leaves `k0pub` nil so the
later `k0pub[0:32]` slice panics.  On success the combined keys are
`k1pub ++ k0pub[0:32]` and `k1priv ++ k0priv[0:32]`. -/
def generateDualPair (P : KeyPrims) (rand : Nat → Option (List Nat)) :
    Except GoPanic (List Nat × List Nat) :=
  let k0 := ed25519GenerateKey P rand
  match rand 1 with
  | none => Except.error GoPanic.notEnoughEntropy
  | some k1priv =>
    let k1pub := P.curveScalarBaseMult k1priv
    match k0 with
    | (some k0pub, some k0priv) =>
      Except.ok (k1pub ++ List.take 32 k0pub, k1priv ++ List.take 32 k0priv)
    | _ => Except.error GoPanic.sliceBoundsOutOfRange

/-- The ASCII code of the lowercase hex digit for `n < 16`, as printed by
the Go fmt verb x.  Strings are modelled as lists of ASCII codes. -/
def hexDigitCode (n : Nat) : Nat :=
  if n < 10 then 48 + n else 87 + n

/-- The minimal lowercase hex representation of `v` (most significant
digit first; empty for 0, which the precision padding covers). -/
def goHexMin (v : Nat) : List Nat :=
  (Nat.digits 16 v).reverse.map hexDigitCode

/-- Model of the Go verb `%.{width}x` on an unsigned integer: the minimal
hex digits, left-padded with the zero digit to at least `width` digits. -/
def goHexPrec (width v : Nat) : List Nat :=
  List.replicate (width - (goHexMin v).length) 48 ++ goHexMin v

/-- The two lowercase hex digits of one byte, as printed by the verb x on
a byte array. -/
def hexByte (b : Nat) : List Nat :=
  [hexDigitCode (b / 16), hexDigitCode (b % 16)]

/-- Model of the Go verb x on a byte array: two lowercase hex digits per
byte, in order. -/
def hexBytes : List Nat → List Nat
  | [] => []
  | b :: t => hexByte b ++ hexBytes t

/-- Model of `PublicKeyString`, identity.go lines 140-142: the result of
Sprintf with the pattern of a 10-digit zero-padded hex address, the
literal colon-zero-colon separator (codes 58, 48, 58), and the hex of the
64-byte public key. -/
def PublicKeyString (id : ZeroTierIdentity) : List Nat :=
  goHexPrec 10 id.address ++ [58, 48, 58] ++ hexBytes id.publicKey

/-- Model of `PrivateKeyString`, identity.go lines 132-137: when a private
key is held, Sprintf with the public pattern extended by a colon and the
hex of the 64-byte private key; otherwise the empty string. -/
def PrivateKeyString (id : ZeroTierIdentity) : List Nat :=
  match id.privateKey with
  | some priv =>
    goHexPrec 10 id.address ++ [58, 48, 58] ++ hexBytes id.publicKey ++ [58] ++ hexBytes priv
  | none => []

/-- The numeric value of one lowercase hex digit code (inverse of
`hexDigitCode` on digit codes). -/
def hexCodeVal (c : Nat) : Nat :=
  if c ≤ 57 then c - 48 else c - 87

/-- The value of a most-significant-first string of hex digit codes. -/
def hexValue (l : List Nat) : Nat :=
  l.foldl (fun a c => a * 16 + hexCodeVal c) 0

/-- Decode a hex string back to bytes, two digits per byte (inverse of
`hexBytes` on byte lists). -/
def unhexBytes : List Nat → List Nat
  | c1 :: c2 :: rest => (hexCodeVal c1 * 16 + hexCodeVal c2) :: unhexBytes rest
  | _ => []

/-- The code `c` is an ASCII lowercase hex digit: 0-9 or a-f. -/
def isLowerHexCode (c : Nat) : Prop :=
  (48 ≤ c ∧ c ≤ 57) ∨ (97 ≤ c ∧ c ≤ 102)

/-- Spec-following mixing step for the amended sentence of the seed-read
claim: the pair of big-endian 8-byte integers is read from the main
2 MiB buffer at offsets i and i+8; the low 3 bits of the first integer
(times 8) index the 64-byte seed, the second integer modulo
`ztIdentityGenMemory / 8` (times 8) indexes the buffer; then the swap and
the full-seed re-encryption as in the source. -/
def mixStepBufferReads (C : CryptoPrims) (key iv : Nat → Nat) (st : MixState) (i : Nat) :
    MixState :=
  let a := beUint64 st.genmem i
  let b := beUint64 st.genmem (i + 8)
  let idx1 := (a &&& 7) * 8
  let idx2 := b % (ztIdentityGenMemory / 8) * 8
  let g2 : Nat → Nat := fun j =>
    if idx2 ≤ j ∧ j < idx2 + 8 then st.s512 (idx1 + (j - idx2)) else st.genmem j
  let s2 : Nat → Nat := fun j =>
    if idx1 ≤ j ∧ j < idx1 + 8 then st.genmem (idx2 + (j - idx1)) else st.s512 j
  let s3 : Nat → Nat := fun j =>
    if j < 64 then s2 j ^^^ C.ks key (putLE64 iv 8 st.s20ctri) j else s2 j
  ⟨s3, g2, st.s20ctri + 1⟩

/-- Modelled from the spec sentence under test for the seed-read claim:
the pair of big-endian 8-byte integers is read from the 64-byte seed
state, not from the main buffer, at an index that wraps around within the
64-byte seed as the loop variable ranges over the buffer length (wrap
taken as reduction of the read offsets modulo 64); everything after the
two reads is as in the source. -/
def mixStepSeedReads (C : CryptoPrims) (key iv : Nat → Nat) (st : MixState) (i : Nat) :
    MixState :=
  let a := beUint64 st.s512 (i % 64)
  let b := beUint64 st.s512 ((i + 8) % 64)
  let idx1 := (a &&& 7) * 8
  let idx2 := b % (ztIdentityGenMemory / 8) * 8
  let g2 : Nat → Nat := fun j =>
    if idx2 ≤ j ∧ j < idx2 + 8 then st.s512 (idx1 + (j - idx2)) else st.genmem j
  let s2 : Nat → Nat := fun j =>
    if idx1 ≤ j ∧ j < idx1 + 8 then st.genmem (idx2 + (j - idx1)) else st.s512 j
  let s3 : Nat → Nat := fun j =>
    if j < 64 then s2 j ^^^ C.ks key (putLE64 iv 8 st.s20ctri) j else s2 j
  ⟨s3, g2, st.s20ctri + 1⟩

/-- Concrete digest-shaped byte function used to instantiate the abstract
primitives in witnesses: zero everywhere except byte 63, which is 1. -/
def trivDigest : Nat → Nat := fun j => if j = 63 then 1 else 0

/-- Concrete primitives for witnesses: the hash of every input is
`trivDigest` and the keystream is constantly zero, so the memory-hard
hash can be evaluated in closed form. -/
def trivPrims : CryptoPrims := ⟨fun _ => trivDigest, fun _ _ _ => 0⟩

/-- Concrete candidate stream for witnesses: every attempt yields the
empty public and private key. -/
def trivGen : Nat → List Nat × List Nat := fun _ => ([], [])

/-- The identity mined by `NewZeroTierIdentity` under `trivPrims` and
`trivGen`: address 1 (digest byte 63) on the first attempt. -/
def idW : ZeroTierIdentity := ⟨1, [], some []⟩

/-- Concrete mixing state for the seed-read counterexample: the seed has
byte 0 equal to 5 and byte 15 equal to 2; the buffer has byte 15 equal
to 1; the counter is 0. -/
def stC : MixState :=
  ⟨fun j => if j = 0 then 5 else if j = 15 then 2 else 0,
   fun j => if j = 15 then 1 else 0, 0⟩

/-- The all-zero byte function. -/
def zeroFn : Nat → Nat := fun _ => 0

/-- Concrete elliptic-curve primitives for witnesses: constant 32-byte
outputs. -/
def trivKeyPrims : KeyPrims :=
  ⟨fun _ => List.replicate 32 7, fun _ => List.replicate 32 9⟩

/-- Random source that always fails. -/
def randNone : Nat → Option (List Nat) := fun _ => none

/-- Random source that always supplies 32 bytes of value 1. -/
def randOk : Nat → Option (List Nat) := fun _ => some (List.replicate 32 1)

/-- Random source whose first request (the ed25519 seed) fails while every
later request succeeds. -/
def randFail0 : Nat → Option (List Nat) :=
  fun i => if i = 0 then none else some (List.replicate 32 1)

/-- Concrete public-only identity for encoding witnesses: address 0, an
all-zero 64-byte public key, no private key. -/
def idPub0 : ZeroTierIdentity := ⟨0, List.replicate 64 0, none⟩

/-- Concrete full identity for encoding witnesses: address 3, a 64-byte
public key of fives, a 64-byte private key of sixes. -/
def idPriv0 : ZeroTierIdentity := ⟨3, List.replicate 64 5, some (List.replicate 64 6)⟩

theorem mixVisited_eq :
    ∀ (k i : Nat), i + 16 * k = ztIdentityGenMemory →
      mixVisited k i = (List.range k).map (fun t => i + 16 * t) := by
  intro k
  induction k with
  | zero => intro i _; simp [mixVisited]
  | succ k ih =>
    intro i hi
    have hM : ztIdentityGenMemory = 2097152 := rfl
    have hlt : i < ztIdentityGenMemory := by omega
    rw [List.range_succ_eq_map]
    simp only [mixVisited, if_pos hlt, ih (i + 16) (by omega), List.map_cons, List.map_map]
    congr 1
    all_goals first
      | omega
      | (apply List.map_congr_left; intro t _; simp [Function.comp]; omega)

theorem mixRun_s20ctri (C : CryptoPrims) (key iv : Nat → Nat) :
    ∀ (fuel i : Nat) (st : MixState),
      (mixRun C key iv fuel i st).s20ctri = st.s20ctri + (mixVisited fuel i).length := by
  intro fuel
  induction fuel with
  | zero => intro i st; simp [mixRun, mixVisited]
  | succ fuel ih =>
    intro i st
    by_cases h : i < ztIdentityGenMemory
    · simp only [mixRun, mixVisited, if_pos h, ih, List.length_cons, mixStep]
      omega
    · simp [mixRun, mixVisited, if_neg h]

theorem mixVisited_length_start :
    (mixVisited (ztIdentityGenMemory / 16) 0).length = 131072 := by
  rw [mixVisited_eq (ztIdentityGenMemory / 16) 0 (by norm_num [ztIdentityGenMemory])]
  simp [ztIdentityGenMemory]

theorem genmemFill_stable (C : CryptoPrims) (key iv : Nat → Nat) :
    ∀ (m n : Nat), n ≤ m → ∀ j, j < 64 * n →
      genmemFill C key iv m j = genmemFill C key iv n j := by
  intro m
  induction m with
  | zero =>
    intro n hn j hj
    have : n = 0 := by omega
    rw [this]
  | succ m ih =>
    intro n hn j hj
    rcases Nat.eq_or_lt_of_le hn with h | h
    · rw [h]
    · have hnm : n ≤ m := by omega
      have hj2 : j < 64 * m := by omega
      simp only [genmemFill, fillBlock]
      rw [if_neg (by omega)]
      exact ih n hnm j hj

theorem genmemFill_block_zero (C : CryptoPrims) (key iv : Nat → Nat) (n j : Nat)
    (hn : 0 < n) (hj : j < 64) :
    genmemFill C key iv n j = 0 ^^^ C.ks key iv j := by
  have h1 : genmemFill C key iv n j = genmemFill C key iv 1 j :=
    genmemFill_stable C key iv n 1 hn j (by omega)
  rw [h1]
  simp [genmemFill, fillBlock, hj]

theorem genmemFill_block_succ (C : CryptoPrims) (key iv : Nat → Nat) (n k j : Nat)
    (hk1 : 1 ≤ k) (hkn : k < n) (hj : j < 64) :
    genmemFill C key iv n (64 * k + j) =
      genmemFill C key iv n (64 * (k - 1) + j) ^^^ C.ks key (putLE64 iv 8 k) j := by
  have h1 : genmemFill C key iv n (64 * k + j) = genmemFill C key iv (k + 1) (64 * k + j) :=
    genmemFill_stable C key iv n (k + 1) hkn (64 * k + j) (by omega)
  have h2 : genmemFill C key iv n (64 * (k - 1) + j) =
      genmemFill C key iv k (64 * (k - 1) + j) :=
    genmemFill_stable C key iv n k (Nat.le_of_lt hkn) (64 * (k - 1) + j) (by omega)
  rw [h1, h2]
  have hk0 : ¬(k = 0) := by omega
  simp only [genmemFill, fillBlock, if_neg hk0]
  rw [if_pos (by omega)]
  have e1 : 64 * k + j - 64 * k = j := by omega
  rw [e1]

/-- Claim C4: the 2,097,152-byte working buffer is filled strictly
sequentially: block 0 (bytes 0..63) is the keystream block at counter 0
applied to an all-zero block, and every block k with 1 ≤ k < 32768 is
the keystream block at counter k (the counter is incremented once per
64-byte block) applied to block k-1, so each block depends on its
predecessor.  The hypothesis on iv states that the counter field of the
16-byte counter block starts at zero, as set up by the hash. -/
theorem fill_sequential_dependent (C : CryptoPrims) (key iv : Nat → Nat)
    (hiv : ∀ j, 8 ≤ j → j < 16 → iv j = 0) (k j : Nat) (hj : j < 64)
    (hk : k < ztIdentityGenMemory / 64) :
    genmemFill C key iv (ztIdentityGenMemory / 64) j
        = 0 ^^^ C.ks key (putLE64 iv 8 0) j ∧
      (1 ≤ k → genmemFill C key iv (ztIdentityGenMemory / 64) (64 * k + j)
        = genmemFill C key iv (ztIdentityGenMemory / 64) (64 * (k - 1) + j) ^^^
            C.ks key (putLE64 iv 8 k) j) := by
  have hiv0 : putLE64 iv 8 0 = iv := by
    funext j
    simp only [putLE64]
    split
    · next h => rw [hiv j h.1 (by omega)]; simp
    · rfl
  constructor
  · rw [hiv0]
    exact genmemFill_block_zero C key iv (ztIdentityGenMemory / 64) j
      (by norm_num [ztIdentityGenMemory]) hj
  · intro hk1
    exact genmemFill_block_succ C key iv (ztIdentityGenMemory / 64) k j hk1 hk hj

theorem fill_sequential_dependent_witness :
    (∀ j, 8 ≤ j → j < 16 → zeroFn j = 0) ∧ (1 : Nat) < ztIdentityGenMemory / 64 ∧
      (genmemFill trivPrims zeroFn zeroFn (ztIdentityGenMemory / 64) 0
          = 0 ^^^ trivPrims.ks zeroFn (putLE64 zeroFn 8 0) 0 ∧
        (1 ≤ 1 → genmemFill trivPrims zeroFn zeroFn (ztIdentityGenMemory / 64) (64 * 1 + 0)
          = genmemFill trivPrims zeroFn zeroFn (ztIdentityGenMemory / 64)
              (64 * (1 - 1) + 0) ^^^ trivPrims.ks zeroFn (putLE64 zeroFn 8 1) 0)) :=
  ⟨fun _ _ _ => rfl, by norm_num [ztIdentityGenMemory],
    fill_sequential_dependent trivPrims zeroFn zeroFn (fun _ _ _ => rfl) 1 0
      (by norm_num) (by norm_num [ztIdentityGenMemory])⟩

/-- Claim C5 amended: the mixing pass advances the loop variable by 16 per
iteration (two 8-byte reads per swap and per full-seed re-encryption), so
it performs ztIdentityGenMemory / 16 = 131072 keystream re-encryptions,
in addition to the ztIdentityGenMemory / 64 = 32768 keystream blocks of
the fill phase; the final keystream counter of the hash is their sum. -/
theorem hash_keystream_block_count (C : CryptoPrims) (pk : List Nat) :
    (hashFinalState C pk).s20ctri = 32768 + 131072 ∧
      ztIdentityGenMemory / 64 = 32768 ∧ ztIdentityGenMemory / 16 = 131072 := by
  refine ⟨?_, by norm_num [ztIdentityGenMemory], by norm_num [ztIdentityGenMemory]⟩
  dsimp only [hashFinalState]
  rw [mixRun_s20ctri, mixVisited_length_start]
  norm_num [ztIdentityGenMemory]

/-- Claim C5 as stated is false: with the trivial primitives on the empty
input, the final keystream counter of the hash records
32768 + 131072 = 163840 keystream blocks, not the
32768 + ztIdentityGenMemory / 8 = 294912 that one swap and one
re-encryption per 8-byte step would produce. -/
theorem mix_reencryption_count_counterexample :
    (hashFinalState trivPrims []).s20ctri ≠ 32768 + ztIdentityGenMemory / 8 := by
  dsimp only [hashFinalState]
  rw [mixRun_s20ctri, mixVisited_length_start]
  norm_num [ztIdentityGenMemory]

/-- Claim C10: every memory access of the mixing pass is in bounds, for
every input.  Every executed value i of the loop variable is a multiple
of 16 with i + 16 ≤ ztIdentityGenMemory, so the two 8-byte big-endian
reads at i and i + 8 stay inside the buffer and the last read starts at
ztIdentityGenMemory - 8; for every buffer content, idx1 is a multiple of
8 at most 56, so the 8-byte seed accesses stay inside the 64-byte seed,
and idx2 is a multiple of 8 at most ztIdentityGenMemory - 8, so the
8-byte buffer accesses stay inside the buffer. -/
theorem mix_accesses_in_bounds :
    (∀ i ∈ mixVisited (ztIdentityGenMemory / 16) 0,
        i % 16 = 0 ∧ i + 16 ≤ ztIdentityGenMemory ∧
          ∀ g : Nat → Nat,
            mixIdx1 g i ≤ 56 ∧ 8 ∣ mixIdx1 g i ∧ mixIdx1 g i + 8 ≤ 64 ∧
              mixIdx2 g i ≤ ztIdentityGenMemory - 8 ∧ 8 ∣ mixIdx2 g i ∧
              mixIdx2 g i + 8 ≤ ztIdentityGenMemory ∧ i + 8 + 8 ≤ ztIdentityGenMemory) ∧
      (ztIdentityGenMemory - 16) ∈ mixVisited (ztIdentityGenMemory / 16) 0 := by
  have hv := mixVisited_eq (ztIdentityGenMemory / 16) 0 (by norm_num [ztIdentityGenMemory])
  have hM : ztIdentityGenMemory = 2097152 := rfl
  constructor
  · intro i hi
    rw [hv] at hi
    simp only [List.mem_map, List.mem_range] at hi
    obtain ⟨t, ht, rfl⟩ := hi
    have ht2 : t < 131072 := by
      have : ztIdentityGenMemory / 16 = 131072 := by norm_num [ztIdentityGenMemory]
      omega
    refine ⟨by omega, by omega, ?_⟩
    intro g
    have ha : beUint64 g (0 + 16 * t) &&& 7 ≤ 7 := Nat.and_le_right
    have hd8 : ztIdentityGenMemory / 8 = 262144 := by norm_num [ztIdentityGenMemory]
    have hb : beUint64 g (0 + 16 * t + 8) % (ztIdentityGenMemory / 8) < 262144 := by
      rw [hd8]
      exact Nat.mod_lt _ (by norm_num)
    simp only [mixIdx1, mixIdx2]
    refine ⟨by omega, ⟨beUint64 g (0 + 16 * t) &&& 7, by omega⟩, by omega,
      by omega, ⟨beUint64 g (0 + 16 * t + 8) % (ztIdentityGenMemory / 8), by omega⟩,
      by omega, by omega⟩
  · rw [hv]
    simp only [List.mem_map, List.mem_range]
    exact ⟨131071, by norm_num [ztIdentityGenMemory], by norm_num [ztIdentityGenMemory]⟩

theorem mix_accesses_in_bounds_witness :
    (0 : Nat) ∈ mixVisited (ztIdentityGenMemory / 16) 0 ∧
      mixIdx1 zeroFn 0 ≤ 56 ∧ mixIdx2 zeroFn 0 ≤ ztIdentityGenMemory - 8 := by
  have hmem : (0 : Nat) ∈ mixVisited (ztIdentityGenMemory / 16) 0 := by
    rw [mixVisited_eq (ztIdentityGenMemory / 16) 0 (by norm_num [ztIdentityGenMemory])]
    simp only [List.mem_map, List.mem_range]
    exact ⟨0, by norm_num [ztIdentityGenMemory], by norm_num⟩
  have h := (mix_accesses_in_bounds.1 0 hmem).2.2 zeroFn
  exact ⟨hmem, h.1, h.2.2.2.1⟩

/-- Claim C2 amended: in every iteration of the mixing pass, the pair of
big-endian 8-byte integers used to derive idx1 and idx2 is read from the
main 2 MiB buffer at offsets i and i + 8 (the loop variable advances 16
per iteration, so these reads never wrap); only idx1, the low three bits
of the first integer times 8, then indexes the 64-byte seed. -/
theorem mixStep_reads_from_buffer (C : CryptoPrims) (key iv : Nat → Nat) (st : MixState)
    (i : Nat) : mixStep C key iv st i = mixStepBufferReads C key iv st i := rfl

set_option maxRecDepth 40000 in
/-- Claim C2 as stated is false: at the concrete state stC with loop
variable 0, the step that reads the pair from the seed state (with
wrap-around inside the 64-byte seed) produces a buffer that differs at
byte 8 from what the source code produces, because the source reads the
pair from the main buffer. -/
theorem mixStep_seed_reads_counterexample :
    (mixStep trivPrims zeroFn zeroFn stC 0).genmem 8 ≠
      (mixStepSeedReads trivPrims zeroFn zeroFn stC 0).genmem 8 := by
  decide

/-- Claim C8: the memory-hard hash is deterministic; any two evaluations
on the same input yield identical digests.  In the embedding the hash is
a function of its input and the primitives alone, so two results of
evaluating it on the same input are equal at every byte. -/
theorem memoryHardHash_deterministic (C : CryptoPrims) (x : List Nat) (d1 d2 : Nat → Nat)
    (h1 : d1 = computeZeroTierIdentityMemoryHardHash C x)
    (h2 : d2 = computeZeroTierIdentityMemoryHardHash C x) :
    ∀ j, d1 j = d2 j := by
  intro j
  rw [h1, h2]

theorem memoryHardHash_deterministic_witness :
    computeZeroTierIdentityMemoryHardHash trivPrims [] 0 =
      computeZeroTierIdentityMemoryHardHash trivPrims [] 0 :=
  memoryHardHash_deterministic trivPrims [] _ _ rfl rfl 0

theorem xor_byte_lt {a b : Nat} (ha : a < 256) (hb : b < 256) : a ^^^ b < 256 := by
  have h256 : (256 : Nat) = 2 ^ 8 := by norm_num
  rw [h256] at ha hb ⊢
  exact Nat.xor_lt_two_pow ha hb

theorem genmemFill_lt (C : CryptoPrims) (key iv : Nat → Nat)
    (hks : ∀ k c j, C.ks k c j < 256) : ∀ n j, genmemFill C key iv n j < 256 := by
  intro n
  induction n with
  | zero => intro j; norm_num [genmemFill]
  | succ n ih =>
    intro j
    simp only [genmemFill, fillBlock]
    split
    · exact xor_byte_lt (ih _) (hks _ _ _)
    · exact ih j

theorem mixStep_lt (C : CryptoPrims) (key iv : Nat → Nat)
    (hks : ∀ k c j, C.ks k c j < 256) (st : MixState) (i : Nat)
    (hs : ∀ j, st.s512 j < 256) (hg : ∀ j, st.genmem j < 256) :
    (∀ j, (mixStep C key iv st i).s512 j < 256) ∧
      (∀ j, (mixStep C key iv st i).genmem j < 256) := by
  constructor
  · intro j
    simp only [mixStep]
    split
    · refine xor_byte_lt ?_ (hks _ _ _)
      split
      · exact hg _
      · exact hs _
    · split
      · exact hg _
      · exact hs _
  · intro j
    simp only [mixStep]
    split
    · exact hs _
    · exact hg _

theorem mixRun_lt (C : CryptoPrims) (key iv : Nat → Nat)
    (hks : ∀ k c j, C.ks k c j < 256) :
    ∀ (fuel i : Nat) (st : MixState), (∀ j, st.s512 j < 256) → (∀ j, st.genmem j < 256) →
      ∀ j, (mixRun C key iv fuel i st).s512 j < 256 := by
  intro fuel
  induction fuel with
  | zero => intro i st hs hg j; simpa [mixRun] using hs j
  | succ fuel ih =>
    intro i st hs hg j
    simp only [mixRun]
    split
    · obtain ⟨hs2, hg2⟩ := mixStep_lt C key iv hks st i hs hg
      exact ih _ _ hs2 hg2 j
    · exact hs j

theorem hashFinalState_unfold (C : CryptoPrims) (pk : List Nat) :
    hashFinalState C pk =
      mixRun C (s20keyOf (C.sha512 pk)) (s20ctrOf (C.sha512 pk)) (ztIdentityGenMemory / 16) 0
        ⟨C.sha512 pk,
          genmemFill C (s20keyOf (C.sha512 pk)) (s20ctrOf (C.sha512 pk))
            (ztIdentityGenMemory / 64),
          ztIdentityGenMemory / 64⟩ := rfl

theorem mixRunS512_eq (C : CryptoPrims) (key iv : Nat → Nat) :
    ∀ (fuel i : Nat) (st : MixState),
      mixRunS512 C key iv fuel i st = (mixRun C key iv fuel i st).s512 := by
  intro fuel
  induction fuel with
  | zero => intro i st; rfl
  | succ fuel ih =>
    intro i st
    simp only [mixRunS512, mixRun]
    by_cases h : i < ztIdentityGenMemory
    · rw [if_pos h, if_pos h]
      exact ih _ _
    · rw [if_neg h, if_neg h]

theorem computeHash_def (C : CryptoPrims) (pk : List Nat) :
    computeZeroTierIdentityMemoryHardHash C pk =
      mixRunS512 C (s20keyOf (C.sha512 pk)) (s20ctrOf (C.sha512 pk)) (ztIdentityGenMemory / 16) 0
        ⟨C.sha512 pk,
          genmemFill C (s20keyOf (C.sha512 pk)) (s20ctrOf (C.sha512 pk))
            (ztIdentityGenMemory / 64),
          ztIdentityGenMemory / 64⟩ := rfl

theorem computeHash_eq_finalState (C : CryptoPrims) (pk : List Nat) :
    computeZeroTierIdentityMemoryHardHash C pk = (hashFinalState C pk).s512 := by
  rw [computeHash_def, mixRunS512_eq, hashFinalState_unfold]

theorem hash_lt (C : CryptoPrims) (hB : ByteValued C) (pk : List Nat) :
    ∀ j, computeZeroTierIdentityMemoryHardHash C pk j < 256 := by
  intro j
  rw [computeHash_def, mixRunS512_eq]
  exact mixRun_lt C (s20keyOf (C.sha512 pk)) (s20ctrOf (C.sha512 pk)) hB.2
    (ztIdentityGenMemory / 16) 0
    ⟨C.sha512 pk,
      genmemFill C (s20keyOf (C.sha512 pk)) (s20ctrOf (C.sha512 pk)) (ztIdentityGenMemory / 64),
      ztIdentityGenMemory / 64⟩
    (fun j2 => hB.1 pk j2)
    (fun j2 => genmemFill_lt C (s20keyOf (C.sha512 pk)) (s20ctrOf (C.sha512 pk)) hB.2
      (ztIdentityGenMemory / 64) j2) j

theorem shiftLeft8_lor_eq (x d : Nat) (hd : d < 256) : x <<< 8 ||| d = x * 256 + d := by
  have h1 : x <<< 8 = 2 ^ 8 * x := by rw [Nat.shiftLeft_eq]; ring
  have hd2 : d < 2 ^ 8 := by
    have h256 : (2 : Nat) ^ 8 = 256 := by norm_num
    omega
  rw [h1, ← Nat.mul_add_lt_is_or hd2 x]
  ring

theorem addr40_eq_be40 (dig : Nat → Nat) (h : ∀ k, dig k < 256) :
    addr40 dig = be40Spec dig := by
  unfold addr40 be40Spec
  rw [shiftLeft8_lor_eq _ _ (h 60), shiftLeft8_lor_eq _ _ (h 61),
    shiftLeft8_lor_eq _ _ (h 62), shiftLeft8_lor_eq _ _ (h 63)]
  ring

/-- Claim C1: for every identity produced by the mining loop
NewZeroTierIdentity (for any fuel, any candidate stream, and any
byte-valued primitives), the memory-hard digest of its public key has
first byte below 17 and byte 59 different from 0xFF, the address equals
the big-endian 40-bit unsigned integer formed from digest bytes 59..63,
and the address is nonzero. -/
theorem newZeroTierIdentity_mining_correct (C : CryptoPrims) (gen : Nat → List Nat × List Nat) :
    ∀ (fuel : Nat) (id : ZeroTierIdentity), ByteValued C →
      NewZeroTierIdentity C gen fuel = some id →
      computeZeroTierIdentityMemoryHardHash C id.publicKey 0 <
          ztIdentityHashCashFirstByteLessThan ∧
        computeZeroTierIdentityMemoryHardHash C id.publicKey 59 ≠ 255 ∧
        id.address = be40Spec (computeZeroTierIdentityMemoryHardHash C id.publicKey) ∧
        id.address ≠ 0 := by
  intro fuel
  induction fuel with
  | zero =>
    intro id _ h
    simp [NewZeroTierIdentity] at h
  | succ fuel ih =>
    intro id hB h
    simp only [NewZeroTierIdentity] at h
    by_cases h1 : computeZeroTierIdentityMemoryHardHash C (gen fuel).1 0 <
        ztIdentityHashCashFirstByteLessThan ∧
        computeZeroTierIdentityMemoryHardHash C (gen fuel).1 59 ≠ 255
    · rw [if_pos h1] at h
      by_cases h2 : addr40 (computeZeroTierIdentityMemoryHardHash C (gen fuel).1) ≠ 0
      · rw [if_pos h2] at h
        rw [Option.some.injEq] at h
        rw [← h]
        refine ⟨h1.1, h1.2, ?_, h2⟩
        exact addr40_eq_be40 _ (fun k => hash_lt C hB _ k)
      · rw [if_neg h2] at h
        exact ih id hB h
    · rw [if_neg h1] at h
      exact ih id hB h

theorem trivFill (key iv : Nat → Nat) : ∀ n j, genmemFill trivPrims key iv n j = 0 := by
  intro n
  induction n with
  | zero => intro j; rfl
  | succ n ih =>
    intro j
    simp only [genmemFill, fillBlock]
    split
    · rw [ih]
      simp [trivPrims]
    · exact ih j

theorem trivStep (key iv : Nat → Nat) (st : MixState) (i : Nat)
    (hg : ∀ j, st.genmem j = 0) (hs : ∀ j, st.s512 j = trivDigest j) :
    (∀ j, (mixStep trivPrims key iv st i).genmem j = 0) ∧
      (∀ j, (mixStep trivPrims key iv st i).s512 j = trivDigest j) := by
  have hbe : ∀ m, beUint64 st.genmem m = 0 := by
    intro m
    simp [beUint64, hg]
  have hidx1 : mixIdx1 st.genmem i = 0 := by simp [mixIdx1, hbe]
  have hidx2 : mixIdx2 st.genmem i = 0 := by simp [mixIdx2, hbe]
  constructor
  · intro j
    simp only [mixStep, hidx1, hidx2]
    split
    · next hc =>
      rw [hs]
      simp only [trivDigest]
      rw [if_neg (by omega)]
    · exact hg j
  · intro j
    simp only [mixStep, hidx1, hidx2]
    have hs2 : (if 0 ≤ j ∧ j < 0 + 8 then st.genmem (0 + (j - 0)) else st.s512 j)
        = trivDigest j := by
      split
      · next hc =>
        rw [hg]
        simp only [trivDigest]
        rw [if_neg (by omega)]
      · exact hs j
    simp only [hs2]
    split
    · simp [trivPrims, Nat.xor_zero]
    · rfl

theorem trivMix (key iv : Nat → Nat) :
    ∀ (fuel i : Nat) (st : MixState), (∀ j, st.genmem j = 0) →
      (∀ j, st.s512 j = trivDigest j) →
      (∀ j, (mixRun trivPrims key iv fuel i st).s512 j = trivDigest j) ∧
        (∀ j, (mixRun trivPrims key iv fuel i st).genmem j = 0) := by
  intro fuel
  induction fuel with
  | zero =>
    intro i st hg hs
    exact ⟨fun j => by simpa [mixRun] using hs j, fun j => by simpa [mixRun] using hg j⟩
  | succ fuel ih =>
    intro i st hg hs
    simp only [mixRun]
    split
    · obtain ⟨hg2, hs2⟩ := trivStep key iv st i hg hs
      exact ih _ _ hg2 hs2
    · exact ⟨fun j => hs j, fun j => hg j⟩

theorem trivHash (pk : List Nat) :
    ∀ j, computeZeroTierIdentityMemoryHardHash trivPrims pk j = trivDigest j := by
  intro j
  rw [computeHash_def, mixRunS512_eq]
  exact (trivMix (s20keyOf (trivPrims.sha512 pk)) (s20ctrOf (trivPrims.sha512 pk))
    (ztIdentityGenMemory / 16) 0
    ⟨trivPrims.sha512 pk,
      genmemFill trivPrims (s20keyOf (trivPrims.sha512 pk)) (s20ctrOf (trivPrims.sha512 pk))
        (ztIdentityGenMemory / 64),
      ztIdentityGenMemory / 64⟩
    (fun j2 => trivFill (s20keyOf (trivPrims.sha512 pk)) (s20ctrOf (trivPrims.sha512 pk))
      (ztIdentityGenMemory / 64) j2)
    (fun j2 => rfl)).1 j

theorem trivMine : NewZeroTierIdentity trivPrims trivGen (0 + 1) = some idW := by
  have hfun : computeZeroTierIdentityMemoryHardHash trivPrims (trivGen 0).1 = trivDigest :=
    funext (trivHash (trivGen 0).1)
  have haddr : addr40 (computeZeroTierIdentityMemoryHardHash trivPrims (trivGen 0).1) = 1 := by
    rw [hfun]
    decide
  have hc1 : computeZeroTierIdentityMemoryHardHash trivPrims (trivGen 0).1 0 <
      ztIdentityHashCashFirstByteLessThan := by
    rw [hfun]
    decide
  have hc2 : computeZeroTierIdentityMemoryHardHash trivPrims (trivGen 0).1 59 ≠ 255 := by
    rw [hfun]
    decide
  simp only [NewZeroTierIdentity]
  rw [if_pos ⟨hc1, hc2⟩, if_pos (by rw [haddr]; norm_num), haddr]
  rfl

theorem newZeroTierIdentity_mining_correct_witness :
    ByteValued trivPrims ∧ NewZeroTierIdentity trivPrims trivGen (0 + 1) = some idW ∧
      (computeZeroTierIdentityMemoryHardHash trivPrims idW.publicKey 0 <
          ztIdentityHashCashFirstByteLessThan ∧
        computeZeroTierIdentityMemoryHardHash trivPrims idW.publicKey 59 ≠ 255 ∧
        idW.address = be40Spec (computeZeroTierIdentityMemoryHardHash trivPrims idW.publicKey) ∧
        idW.address ≠ 0) := by
  have hB : ByteValued trivPrims := by
    constructor
    · intro pk j
      simp only [trivPrims, trivDigest]
      split <;> norm_num
    · intro k c j
      norm_num [trivPrims]
  exact ⟨hB, trivMine,
    newZeroTierIdentity_mining_correct trivPrims trivGen (0 + 1) idW hB trivMine⟩

/-- Claim C3 as stated is false at a concrete input: when the secure
random source fails the signature-seed read (request 0) but supplies the
key-agreement scalar (request 1), generation still aborts, but with the
runtime slice-bounds panic caused by the discarded ed25519 error, not
with the insufficient-entropy panic the claim names. -/
theorem generateDualPair_entropy_counterexample :
    randFail0 0 = none ∧
      generateDualPair trivKeyPrims randFail0 = Except.error GoPanic.sliceBoundsOutOfRange ∧
      GoPanic.sliceBoundsOutOfRange ≠ GoPanic.notEnoughEntropy :=
  ⟨rfl, rfl, by decide⟩

/-- Claim C3 amended: whenever the secure random source cannot supply the
requested bytes during dual key generation, generation fails by
aborting — with the explicit insufficient-entropy panic when the
key-agreement scalar read fails, and with a runtime slice-bounds panic
when the signature-seed read fails (its error is discarded); the failure
propagates, a failing generation never returns keys, the result depends
only on the two reads (no retry), and on success the returned key
material is exactly the bytes read from the source. -/
theorem generateDualPair_entropy_abort (P : KeyPrims) (rand : Nat → Option (List Nat)) :
    (rand 1 = none → generateDualPair P rand = Except.error GoPanic.notEnoughEntropy) ∧
      (∀ k, rand 0 = none → rand 1 = some k →
        generateDualPair P rand = Except.error GoPanic.sliceBoundsOutOfRange) ∧
      ((rand 0 = none ∨ rand 1 = none) →
        ∀ pub priv, generateDualPair P rand ≠ Except.ok (pub, priv)) ∧
      (∀ pub priv, generateDualPair P rand = Except.ok (pub, priv) →
        ∃ s k, rand 0 = some s ∧ rand 1 = some k ∧
          pub = P.curveScalarBaseMult k ++ List.take 32 (P.ed25519Pub s) ∧
          priv = k ++ List.take 32 (s ++ P.ed25519Pub s)) ∧
      (∀ rand2 : Nat → Option (List Nat), rand 0 = rand2 0 → rand 1 = rand2 1 →
        generateDualPair P rand = generateDualPair P rand2) := by
  refine ⟨?_, ?_, ?_, ?_, ?_⟩
  · intro h1
    simp [generateDualPair, h1]
  · intro k h0 h1
    simp [generateDualPair, ed25519GenerateKey, h0, h1]
  · intro hor pub priv h
    rcases hor with h0 | h1
    · cases h1 : rand 1 with
      | none => simp [generateDualPair, h1] at h
      | some k => simp [generateDualPair, ed25519GenerateKey, h0, h1] at h
    · simp [generateDualPair, h1] at h
  · intro pub priv h
    cases h0 : rand 0 with
    | none =>
      cases h1 : rand 1 with
      | none => simp [generateDualPair, h1] at h
      | some k => simp [generateDualPair, ed25519GenerateKey, h0, h1] at h
    | some s =>
      cases h1 : rand 1 with
      | none => simp [generateDualPair, h1] at h
      | some k =>
        simp [generateDualPair, ed25519GenerateKey, h0, h1] at h
        exact ⟨s, k, rfl, rfl, h.1.symm, h.2.symm⟩
  · intro rand2 h0 h1
    simp [generateDualPair, ed25519GenerateKey, h0, h1]

theorem generateDualPair_entropy_abort_witness :
    generateDualPair trivKeyPrims randNone = Except.error GoPanic.notEnoughEntropy :=
  (generateDualPair_entropy_abort trivKeyPrims randNone).1 rfl

/-- Claim C9: for every key pair returned by the dual key generator (the
curve and signature primitives produce 32-byte outputs and the random
source supplies 32-byte reads), bytes 0..31 of the combined 64-byte
public key are the curve25519 key-agreement public key and bytes 32..63
are the ed25519 signature public key; the combined 64-byte private key is
laid out the same way: key-agreement private scalar in bytes 0..31,
signature private seed in bytes 32..63. -/
theorem generateDualPair_layout (P : KeyPrims) (rand : Nat → Option (List Nat))
    (pub priv : List Nat)
    (hEd : ∀ s, (P.ed25519Pub s).length = 32)
    (hCurve : ∀ k, (P.curveScalarBaseMult k).length = 32)
    (hRand : ∀ i l, rand i = some l → l.length = 32)
    (h : generateDualPair P rand = Except.ok (pub, priv)) :
    ∃ s k, rand 0 = some s ∧ rand 1 = some k ∧
      pub.length = 64 ∧ priv.length = 64 ∧
      pub.take 32 = P.curveScalarBaseMult k ∧ pub.drop 32 = P.ed25519Pub s ∧
      priv.take 32 = k ∧ priv.drop 32 = s := by
  cases h0 : rand 0 with
  | none =>
    cases h1 : rand 1 with
    | none => simp [generateDualPair, h1] at h
    | some k => simp [generateDualPair, ed25519GenerateKey, h0, h1] at h
  | some s =>
    cases h1 : rand 1 with
    | none => simp [generateDualPair, h1] at h
    | some k =>
      simp [generateDualPair, ed25519GenerateKey, h0, h1] at h
      have hs : s.length = 32 := hRand 0 s h0
      have hk : k.length = 32 := hRand 1 k h1
      have hEdTake : List.take 32 (P.ed25519Pub s) = P.ed25519Pub s :=
        List.take_of_length_le (Nat.le_of_eq (hEd s))
      have hSeedTake : List.take 32 (s ++ P.ed25519Pub s) = s :=
        List.take_left' hs
      refine ⟨s, k, rfl, rfl, ?_, ?_, ?_, ?_, ?_, ?_⟩
      · rw [← h.1, hEdTake]
        simp [List.length_append, hEd s, hCurve k]
      · rw [← h.2, hSeedTake]
        simp [List.length_append, hs, hk]
      · rw [← h.1, hEdTake, List.take_left' (hCurve k)]
      · rw [← h.1, hEdTake, List.drop_left' (hCurve k)]
      · rw [← h.2, hSeedTake, List.take_left' hk]
      · rw [← h.2, hSeedTake, List.drop_left' hk]

theorem generateDualPair_layout_witness :
    generateDualPair trivKeyPrims randOk =
        Except.ok (List.replicate 32 9 ++ List.replicate 32 7,
          List.replicate 32 1 ++ List.replicate 32 1) ∧
      ∃ s k, randOk 0 = some s ∧ randOk 1 = some k ∧
        (List.replicate 32 9 ++ List.replicate 32 7).length = 64 ∧
        (List.replicate 32 1 ++ List.replicate 32 1).length = 64 ∧
        (List.replicate 32 9 ++ List.replicate 32 7).take 32 =
          trivKeyPrims.curveScalarBaseMult k ∧
        (List.replicate 32 9 ++ List.replicate 32 7).drop 32 = trivKeyPrims.ed25519Pub s ∧
        (List.replicate 32 1 ++ List.replicate 32 1).take 32 = k ∧
        (List.replicate 32 1 ++ List.replicate 32 1).drop 32 = s :=
  ⟨rfl,
    generateDualPair_layout trivKeyPrims randOk
      (List.replicate 32 9 ++ List.replicate 32 7)
      (List.replicate 32 1 ++ List.replicate 32 1)
      (fun s => by simp [trivKeyPrims])
      (fun k => by simp [trivKeyPrims])
      (fun i l hl => by
        simp only [randOk, Option.some.injEq] at hl
        rw [← hl]
        simp)
      rfl⟩

theorem hexCodeVal_hexDigitCode {d : Nat} (hd : d < 16) : hexCodeVal (hexDigitCode d) = d := by
  simp only [hexDigitCode, hexCodeVal]
  split
  · next h => rw [if_pos (by omega)]; omega
  · next h => rw [if_neg (by omega)]; omega

theorem hexDigitCode_lower {d : Nat} (hd : d < 16) : isLowerHexCode (hexDigitCode d) := by
  simp only [hexDigitCode, isLowerHexCode]
  split
  · exact Or.inl (by omega)
  · exact Or.inr (by omega)

theorem hexValue_replicate_zero (k : Nat) (l : List Nat) :
    hexValue (List.replicate k 48 ++ l) = hexValue l := by
  induction k with
  | zero => rfl
  | succ k ih =>
    simp only [List.replicate_succ, List.cons_append, hexValue, List.foldl_cons] at ih ⊢
    have h0 : 0 * 16 + hexCodeVal 48 = 0 := by simp [hexCodeVal]
    rw [h0]
    exact ih

theorem hexValue_goHexMin : ∀ L : List Nat, (∀ d ∈ L, d < 16) →
    hexValue (L.reverse.map hexDigitCode) = Nat.ofDigits 16 L := by
  intro L
  induction L with
  | nil => intro _; rfl
  | cons d T ih =>
    intro h
    simp only [List.reverse_cons, List.map_append, List.map_cons, List.map_nil]
    simp only [hexValue, List.foldl_append, List.foldl_cons, List.foldl_nil]
    rw [hexCodeVal_hexDigitCode (h d (List.mem_cons_self d T))]
    have ihh := ih (fun x hx => h x (List.mem_cons_of_mem d hx))
    simp only [hexValue] at ihh
    rw [ihh, Nat.ofDigits_cons]
    ring

theorem goHexMin_length_le (v : Nat) (hv : v < 2 ^ 40) : (goHexMin v).length ≤ 10 := by
  simp only [goHexMin, List.length_map, List.length_reverse]
  by_cases h0 : v = 0
  · subst h0
    simp
  · by_contra hgt
    push_neg at hgt
    have h2 : 16 ^ (Nat.digits 16 v).length ≤ 16 * v :=
      Nat.base_pow_length_digits_le 16 v (by norm_num) h0
    have h3 : (16 : Nat) ^ 11 ≤ 16 ^ (Nat.digits 16 v).length :=
      Nat.pow_le_pow_right (by norm_num) (by omega)
    have e1 : (16 : Nat) ^ 11 = 17592186044416 := by norm_num
    have e2 : (2 : Nat) ^ 40 = 1099511627776 := by norm_num
    omega

theorem goHexPrec_length (v : Nat) (hv : v < 2 ^ 40) : (goHexPrec 10 v).length = 10 := by
  have h := goHexMin_length_le v hv
  simp only [goHexPrec, List.length_append, List.length_replicate]
  omega

theorem hexValue_goHexPrec (v : Nat) : hexValue (goHexPrec 10 v) = v := by
  simp only [goHexPrec, goHexMin]
  rw [hexValue_replicate_zero,
    hexValue_goHexMin (Nat.digits 16 v) (fun d hd => Nat.digits_lt_base (by norm_num) hd),
    Nat.ofDigits_digits]

theorem goHexPrec_lower (v : Nat) : ∀ c ∈ goHexPrec 10 v, isLowerHexCode c := by
  intro c hc
  simp only [goHexPrec, List.mem_append] at hc
  rcases hc with hc | hc
  · rw [List.eq_of_mem_replicate hc]
    exact Or.inl (by omega)
  · simp only [goHexMin, List.mem_map] at hc
    obtain ⟨d, hd, hdc⟩ := hc
    rw [← hdc]
    exact hexDigitCode_lower (Nat.digits_lt_base (by norm_num) (List.mem_reverse.mp hd))

theorem hexBytes_length : ∀ l : List Nat, (hexBytes l).length = 2 * l.length := by
  intro l
  induction l with
  | nil => rfl
  | cons b t ih =>
    simp only [hexBytes, hexByte, List.cons_append, List.nil_append, List.length_cons,
      List.length_append, ih]
    omega

theorem unhexBytes_hexBytes : ∀ l : List Nat, (∀ b ∈ l, b < 256) →
    unhexBytes (hexBytes l) = l := by
  intro l
  induction l with
  | nil => intro _; rfl
  | cons b t ih =>
    intro h
    have hb : b < 256 := h b (List.mem_cons_self b t)
    show unhexBytes (hexDigitCode (b / 16) :: hexDigitCode (b % 16) :: hexBytes t) = b :: t
    simp only [unhexBytes]
    rw [hexCodeVal_hexDigitCode (by omega), hexCodeVal_hexDigitCode (by omega),
      ih (fun x hx => h x (List.mem_cons_of_mem b hx))]
    congr 1
    omega

theorem hexBytes_lower : ∀ l : List Nat, (∀ b ∈ l, b < 256) →
    ∀ c ∈ hexBytes l, isLowerHexCode c := by
  intro l
  induction l with
  | nil => intro _ c hc; cases hc
  | cons b t ih =>
    intro h c hc
    have hb : b < 256 := h b (List.mem_cons_self b t)
    simp only [hexBytes, hexByte, List.cons_append, List.nil_append, List.mem_cons] at hc
    rcases hc with hc | hc | hc
    · rw [hc]
      exact hexDigitCode_lower (by omega)
    · rw [hc]
      exact hexDigitCode_lower (by omega)
    · exact ih (fun x hx => h x (List.mem_cons_of_mem b hx)) c hc

/-- Claim C6: for every identity whose address fits in 40 bits and whose
public key is a 64-byte list of byte values, the public string is exactly
10 zero-padded lowercase hex digits encoding the address, then the
literal colon-zero-colon separator (ASCII 58, 48, 58), then exactly 128
lowercase hex digits encoding the 64-byte public key, with no truncation
or expansion: the fields have exactly those widths and decode back to
the address and the key. -/
theorem publicKeyString_format (id : ZeroTierIdentity) (hA : id.address < 2 ^ 40)
    (hL : id.publicKey.length = 64) (hB : ∀ b ∈ id.publicKey, b < 256) :
    PublicKeyString id =
        goHexPrec 10 id.address ++ [58, 48, 58] ++ hexBytes id.publicKey ∧
      (goHexPrec 10 id.address).length = 10 ∧
      (hexBytes id.publicKey).length = 128 ∧
      hexValue (goHexPrec 10 id.address) = id.address ∧
      unhexBytes (hexBytes id.publicKey) = id.publicKey ∧
      (∀ c ∈ goHexPrec 10 id.address, isLowerHexCode c) ∧
      (∀ c ∈ hexBytes id.publicKey, isLowerHexCode c) := by
  refine ⟨rfl, goHexPrec_length id.address hA, ?_, hexValue_goHexPrec id.address,
    unhexBytes_hexBytes _ hB, goHexPrec_lower _, hexBytes_lower _ hB⟩
  rw [hexBytes_length, hL]

theorem publicKeyString_format_witness :
    PublicKeyString idPub0 =
        goHexPrec 10 idPub0.address ++ [58, 48, 58] ++ hexBytes idPub0.publicKey ∧
      (goHexPrec 10 idPub0.address).length = 10 ∧
      (hexBytes idPub0.publicKey).length = 128 ∧
      hexValue (goHexPrec 10 idPub0.address) = idPub0.address ∧
      unhexBytes (hexBytes idPub0.publicKey) = idPub0.publicKey ∧
      (∀ c ∈ goHexPrec 10 idPub0.address, isLowerHexCode c) ∧
      (∀ c ∈ hexBytes idPub0.publicKey, isLowerHexCode c) :=
  publicKeyString_format idPub0 (by norm_num [idPub0]) (by simp [idPub0])
    (by
      intro b hb
      simp only [idPub0] at hb
      rw [List.eq_of_mem_replicate hb]
      omega)

/-- Claim C7: for every identity, if a private key is held the private
string equals the public string followed by a literal colon (ASCII 58)
and the hex encoding of the private key — exactly 128 lowercase hex
digits decoding back to the key when the key is 64 bytes of byte
values — and if no private key is held the private string is the empty
string, not an error, with no key bytes fabricated or zero-filled. -/
theorem privateKeyString_format (id : ZeroTierIdentity) :
    (∀ priv, id.privateKey = some priv →
        PrivateKeyString id = PublicKeyString id ++ [58] ++ hexBytes priv ∧
        (priv.length = 64 → (hexBytes priv).length = 128) ∧
        ((∀ b ∈ priv, b < 256) → unhexBytes (hexBytes priv) = priv ∧
          ∀ c ∈ hexBytes priv, isLowerHexCode c)) ∧
      (id.privateKey = none → PrivateKeyString id = []) := by
  constructor
  · intro priv hp
    refine ⟨?_, ?_, ?_⟩
    · simp only [PrivateKeyString, PublicKeyString, hp]
    · intro h64
      rw [hexBytes_length, h64]
    · intro hb
      exact ⟨unhexBytes_hexBytes priv hb, hexBytes_lower priv hb⟩
  · intro hp
    simp only [PrivateKeyString, hp]

theorem privateKeyString_format_witness :
    PrivateKeyString idPriv0 =
        PublicKeyString idPriv0 ++ [58] ++ hexBytes (List.replicate 64 6) ∧
      PrivateKeyString idPub0 = [] :=
  ⟨((privateKeyString_format idPriv0).1 (List.replicate 64 6) rfl).1,
    (privateKeyString_format idPub0).2 rfl⟩
